import Mathlib

/-!
Verification of the `PersonRepository` component of the NABManagement lab
(`repository/PersonRepository.py`): an in-memory list of people kept sorted
ascending by id, with add / find / find_by_id / find_by_name / find_by_address /
find_by_phone / remove / remove_by_id operations and a textual rendering.

The repository state is modelled as the Python instance attribute `self.__list`,
a `List Person`.  Python values passed to the public operations are modelled by
the sum type `PyVal`, so that the dynamic type checks of the source
(`type(x) is not Person`, `type(x) is not str`, `type(pos) is not int`) are
expressed faithfully.  Exceptions (`NABException(msg)`) are modelled with
`Except String`, carrying the exact message string the source raises; mutating
operations return the result together with the post-state, and every `raise`
in the source happens before any mutation, so the error branches return the
state unchanged, exactly as in the Python code.
-/

deriving instance DecidableEq for Except

/-- Modelled from the spec: `domain/Person.py` is not under `src/`.  Spec §3 and
§4.3: a value object with fields `id` (integer key), `name`, `phone`, `address`
and structural equality.  The id field is `Int` (any integer, not only positive
ones) so that the validator's positivity check below is meaningful. -/
structure Person where
  id : Int
  name : String
  phone : String
  address : String
deriving DecidableEq, Repr

/-- Models the universe of Python values that reach the public operations:
integers, strings, `Person` instances, and any other object (`pynone`).  The
repository's dynamic type checks only distinguish these cases. -/
inductive PyVal where
  | int (n : Int)
  | str (s : String)
  | person (p : Person)
  | pynone
deriving DecidableEq

/-- Modelled from the spec: `domain/PersonValidator.py` is not under `src/`.
Spec §4.2: `valid_id(value) -> boolean`, true iff value is an integer and
strictly greater than zero. -/
def PersonValidator.valid_id (v : PyVal) : Bool :=
  match v with
  | .int n => decide (0 < n)
  | _ => false

/-- Message of the `NABException` raised by `add` for a non-`Person` argument. -/
def msgInvalidPerson : String := "The given person is not valid."

/-- Message of the `NABException` raised by `add` for a duplicate id. -/
def msgDuplicateId : String := "There's already a person with that ID."

/-- Message of the `NABException` raised when `valid_id` fails. -/
def msgInvalidId : String := "The given ID is not a positive integer."

/-- Message of the `NABException` raised by `find_by_id`/`remove_by_id` when no
person with the given id exists. -/
def msgNotFound : String := "No person with the given ID was found."

/-- Message of the `NABException` raised by `find_by_name` for a non-string. -/
def msgInvalidName : String := "The given name is not a string."

/-- Message of the `NABException` raised by `find_by_address` for a non-string. -/
def msgInvalidAddress : String := "The given address is not a string."

/-- Message of the `NABException` raised by `find_by_phone` for a non-string. -/
def msgInvalidPhone : String := "The given phone number is not a string."

/-- Message of the `NABException` raised by `remove` for a bad position. -/
def msgInvalidPos : String := "The given position is not valid."

/-- Message of a Python `IndexError` on list indexing; this branch is
unreachable in the operations below (indices are always in range there) but is
kept so the model does not invent a value where Python would raise. -/
def msgIndexError : String := "list index out of range"

/-- Models `self.__list.sort(key = lambda x: x.id)`: Python's `list.sort` is a
stable sort on the key, here the `id` field; `List.insertionSort` with the
non-strict key order is a stable sort with the same result. -/
def sortById (l : List Person) : List Person :=
  l.insertionSort (fun a b => a.id ≤ b.id)

/-- Models the scan loop of `PersonRepository.find`:
`for i in range(len(self.__list)): if self.__list[i].id == id: return i` and the
final `return -1`.  The comparison `self.__list[i].id == id` compares the stored
integer id with the (already validated) argument value. -/
def findIdxOr (l : List Person) (v : PyVal) : Int :=
  match l with
  | [] => -1
  | p :: rest =>
    if PyVal.int p.id = v then 0
    else
      let r := findIdxOr rest v
      if r = -1 then -1 else r + 1

/-- `PersonRepository.find`: validates the id, then scans for its index,
returning -1 when absent.  Pure: the source mutates nothing here. -/
def PersonRepository.find (repo : List Person) (id : PyVal) : Except String Int :=
  if PersonValidator.valid_id id then .ok (findIdxOr repo id)
  else .error msgInvalidId

/-- `PersonRepository.add`: rejects non-`Person` arguments, then looks the id up
with `find` (whose id validation can itself raise), rejects duplicates, and
otherwise appends and re-sorts.  Every raise happens before the mutation, so
error branches return the state unchanged. -/
def PersonRepository.add (repo : List Person) (v : PyVal) :
    Except String Unit × List Person :=
  match v with
  | .person p =>
    match PersonRepository.find repo (.int p.id) with
    | .error e => (.error e, repo)
    | .ok i =>
      if i ≠ -1 then (.error msgDuplicateId, repo)
      else (.ok (), sortById (repo ++ [p]))
  | _ => (.error msgInvalidPerson, repo)

/-- `PersonRepository.find_by_id`: validates the id, delegates to `find`, and
either returns `self.__list[pos]` or raises not-found. -/
def PersonRepository.find_by_id (repo : List Person) (id : PyVal) :
    Except String Person :=
  if PersonValidator.valid_id id then
    match PersonRepository.find repo id with
    | .error e => .error e
    | .ok pos =>
      if pos ≠ -1 then
        match repo[pos.toNat]? with
        | some p => .ok p
        | none => .error msgIndexError
      else .error msgNotFound
  else .error msgInvalidId

/-- Models the shared loop shape of `find_by_name` / `find_by_address` /
`find_by_phone`: `foundPeople = PersonRepository()` then
`for person in self.__list: if <pred>: foundPeople.add(person)`, where an
exception from `foundPeople.add` propagates out of the method. -/
def filterAdd (pred : Person → Bool) (acc : List Person) :
    List Person → Except String (List Person)
  | [] => .ok acc
  | p :: rest =>
    if pred p then
      match PersonRepository.add acc (.person p) with
      | (.ok _, acc2) => filterAdd pred acc2 rest
      | (.error e, _) => .error e
    else filterAdd pred acc rest

/-- Models Python's substring containment `pat in hay` (case-sensitive): some
drop of `hay`'s characters starts with `pat`'s characters. -/
def strContains (hay pat : String) : Bool :=
  (List.range (hay.toList.length + 1)).any fun i =>
    (hay.toList.drop i).take pat.toList.length = pat.toList

/-- `PersonRepository.find_by_name`: rejects non-strings, then builds a new
repository of the people whose name contains the given substring. -/
def PersonRepository.find_by_name (repo : List Person) (v : PyVal) :
    Except String (List Person) :=
  match v with
  | .str s => filterAdd (fun p => strContains p.name s) [] repo
  | _ => .error msgInvalidName

/-- `PersonRepository.find_by_address`: as `find_by_name`, on the address. -/
def PersonRepository.find_by_address (repo : List Person) (v : PyVal) :
    Except String (List Person) :=
  match v with
  | .str s => filterAdd (fun p => strContains p.address s) [] repo
  | _ => .error msgInvalidAddress

/-- `PersonRepository.find_by_phone`: as `find_by_name`, on the phone. -/
def PersonRepository.find_by_phone (repo : List Person) (v : PyVal) :
    Except String (List Person) :=
  match v with
  | .str s => filterAdd (fun p => strContains p.phone s) [] repo
  | _ => .error msgInvalidPhone

/-- `PersonRepository.remove`: rejects a non-int or out-of-range position, else
`return self.__list.pop(pos)` — returns the element at `pos` and the list with
that index erased. -/
def PersonRepository.remove (repo : List Person) (v : PyVal) :
    Except String Person × List Person :=
  match v with
  | .int pos =>
    if pos < 0 ∨ (repo.length : Int) ≤ pos then (.error msgInvalidPos, repo)
    else
      match repo[pos.toNat]? with
      | some p => (.ok p, repo.eraseIdx pos.toNat)
      | none => (.error msgIndexError, repo)
  | _ => (.error msgInvalidPos, repo)

/-- `PersonRepository.remove_by_id`: validates the id, finds its position, and
delegates to `remove`; raises not-found when `find` returned -1. -/
def PersonRepository.remove_by_id (repo : List Person) (v : PyVal) :
    Except String Person × List Person :=
  if PersonValidator.valid_id v then
    match PersonRepository.find repo v with
    | .error e => (.error e, repo)
    | .ok pos =>
      if pos ≠ -1 then PersonRepository.remove repo (.int pos)
      else (.error msgNotFound, repo)
  else (.error msgInvalidId, repo)

/-- `PersonRepository.all`: returns the internal list as is (no sort). -/
def PersonRepository.all (repo : List Person) : List Person := repo

/-- `PersonRepository.__iter__`: sorts the internal list by id, then yields it
in that order. -/
def PersonRepository.iterate (repo : List Person) : List Person := sortById repo

/-- `PersonRepository.__len__`: sorts the internal list by id, then returns its
length. -/
def PersonRepository.size (repo : List Person) : Nat := (sortById repo).length

/-- Modelled from the spec: `str(person)` comes from `domain/Person.py`, which
is not under `src/`.  Spec §4.1 calls the rendering "a human-readable
multi-line dump of all records", so each record renders as one non-empty
newline-terminated line with its four fields. -/
def personStr (p : Person) : String :=
  toString p.id ++ " " ++ p.name ++ " " ++ p.phone ++ " " ++ p.address ++ "\n"

/-- `PersonRepository.__str__`: concatenates `str(person)` over the internal
list and returns the result, or the sentinel `"None\n"` when that
concatenation is empty. -/
def PersonRepository.toStr (repo : List Person) : String :=
  let ret := repo.foldl (fun acc p => acc ++ personStr p) ""
  if ret ≠ "" then ret else "None\n"

/-- The repository invariant: the internal list is strictly ascending by id
(hence ids are pairwise distinct) and every contained id is positive. -/
def Valid (repo : List Person) : Prop :=
  repo.Pairwise (fun a b => a.id < b.id) ∧ ∀ p ∈ repo, 0 < p.id

/-- One public mutating call on a repository, relating the state before to the
state after (error branches keep the state, as in the definitions above;
`__len__` / `__iter__` re-sort the list in place). -/
inductive Step : List Person → List Person → Prop where
  | add (repo : List Person) (v : PyVal) :
      Step repo (PersonRepository.add repo v).2
  | remove (repo : List Person) (v : PyVal) :
      Step repo (PersonRepository.remove repo v).2
  | remove_by_id (repo : List Person) (v : PyVal) :
      Step repo (PersonRepository.remove_by_id repo v).2
  | len_or_iter (repo : List Person) :
      Step repo (sortById repo)

/-- Repository states reachable from the empty repository (`__init__`) by any
sequence of public operations. -/
def Reachable (repo : List Person) : Prop :=
  Relation.ReflTransGen Step [] repo

/-! Fixtures: the repository built by `__repo_for_tests()` in the source. -/

def pJohn : Person := ⟨1, "John", "1", "A"⟩

def pMary : Person := ⟨2, "Mary", "1", "B"⟩

def pMike5 : Person := ⟨5, "Mike", "3", "B"⟩

def pMike7 : Person := ⟨7, "Mike", "4", "C"⟩

def repo4 : List Person := [pJohn, pMary, pMike5, pMike7]

/-! Basic facts about `sortById`. -/

instance : IsTotal Person (fun a b => a.id ≤ b.id) :=
  ⟨fun a b => Int.le_total a.id b.id⟩

instance : IsTrans Person (fun a b => a.id ≤ b.id) :=
  ⟨fun _ _ _ h1 h2 => le_trans h1 h2⟩

lemma sortById_sorted (l : List Person) :
    (sortById l).Pairwise (fun a b => a.id ≤ b.id) :=
  List.sorted_insertionSort _ l

lemma sortById_perm (l : List Person) : List.Perm (sortById l) l :=
  List.perm_insertionSort _ l

lemma sortById_eq_of_sorted {l : List Person}
    (h : l.Pairwise (fun a b => a.id ≤ b.id)) : sortById l = l :=
  List.Sorted.insertionSort_eq h

lemma nodup_map_id {l : List Person}
    (h : l.Pairwise (fun a b => a.id < b.id)) : (l.map Person.id).Nodup :=
  List.pairwise_map.mpr (h.imp fun hab => ne_of_lt hab)

lemma pairwise_lt_of_sorted_nodup {l : List Person}
    (hs : l.Pairwise (fun a b => a.id ≤ b.id))
    (hn : (l.map Person.id).Nodup) :
    l.Pairwise (fun a b => a.id < b.id) := by
  have hne : l.Pairwise (fun a b => a.id ≠ b.id) := List.pairwise_map.mp hn
  exact (hs.and hne).imp fun h => lt_of_le_of_ne h.1 h.2

lemma valid_sortById {l : List Person} (hn : (l.map Person.id).Nodup)
    (hp : ∀ p ∈ l, 0 < p.id) : Valid (sortById l) := by
  constructor
  · apply pairwise_lt_of_sorted_nodup (sortById_sorted l)
    have hperm : List.Perm ((sortById l).map Person.id) (l.map Person.id) :=
      (sortById_perm l).map _
    exact hperm.nodup_iff.mpr hn
  · intro p hp2
    exact hp p ((sortById_perm l).mem_iff.mp hp2)

lemma Valid.sortById_eq {l : List Person} (h : Valid l) : sortById l = l :=
  sortById_eq_of_sorted (h.1.imp fun hab => le_of_lt hab)

/-! Facts about the scan `findIdxOr`. -/

lemma findIdxOr_ge (l : List Person) (v : PyVal) : -1 ≤ findIdxOr l v := by
  induction l with
  | nil => simp [findIdxOr]
  | cons p rest ih =>
    simp only [findIdxOr]
    split_ifs with h1 h2
    · decide
    · exact le_refl _
    · omega

lemma findIdxOr_eq_neg_one (l : List Person) (v : PyVal)
    (h : ∀ p ∈ l, PyVal.int p.id ≠ v) : findIdxOr l v = -1 := by
  induction l with
  | nil => rfl
  | cons p rest ih =>
    have h1 : ¬ PyVal.int p.id = v := h p (List.mem_cons_self p rest)
    have h2 : findIdxOr rest v = -1 :=
      ih fun q hq => h q (List.mem_cons_of_mem _ hq)
    simp [findIdxOr, h1, h2]

lemma findIdxOr_nonneg (l : List Person) (v : PyVal) (q : Person)
    (hq : q ∈ l) (hv : PyVal.int q.id = v) : 0 ≤ findIdxOr l v := by
  induction l with
  | nil => cases hq
  | cons p rest ih =>
    simp only [findIdxOr]
    split_ifs with h1 h2
    · decide
    · rcases List.mem_cons.mp hq with rfl | hq2
      · exact absurd hv h1
      · have := ih hq2
        omega
    · have := findIdxOr_ge rest v
      omega

lemma findIdxOr_getElem (l : List Person) (v : PyVal)
    (hge : 0 ≤ findIdxOr l v) :
    ∃ q, l[(findIdxOr l v).toNat]? = some q ∧ PyVal.int q.id = v := by
  induction l with
  | nil => simp [findIdxOr] at hge
  | cons p rest ih =>
    by_cases h1 : PyVal.int p.id = v
    · exact ⟨p, by simp [findIdxOr, h1], h1⟩
    · have hrec : findIdxOr (p :: rest) v =
          if findIdxOr rest v = -1 then -1 else findIdxOr rest v + 1 := by
        simp [findIdxOr, h1]
      by_cases h2 : findIdxOr rest v = -1
      · rw [hrec, if_pos h2] at hge
        exact absurd hge (by decide)
      · rw [hrec, if_neg h2] at hge ⊢
        have h0 : 0 ≤ findIdxOr rest v := by
          have := findIdxOr_ge rest v
          omega
        obtain ⟨q, hq1, hq2⟩ := ih h0
        refine ⟨q, ?_, hq2⟩
        have h3 : (findIdxOr rest v + 1).toNat = (findIdxOr rest v).toNat + 1 := by
          omega
        rw [h3]
        simpa using hq1

/-! Characterizations of `find` and `add`. -/

lemma find_int_pos {repo : List Person} {n : Int} (hn : 0 < n) :
    PersonRepository.find repo (.int n) = .ok (findIdxOr repo (.int n)) := by
  simp [PersonRepository.find, PersonValidator.valid_id, hn]

lemma find_invalid {repo : List Person} {v : PyVal}
    (hv : PersonValidator.valid_id v = false) :
    PersonRepository.find repo v = .error msgInvalidId := by
  simp [PersonRepository.find, hv]

lemma add_person_invalid {repo : List Person} {p : Person} (hp : ¬ 0 < p.id) :
    PersonRepository.add repo (.person p) = (.error msgInvalidId, repo) := by
  simp [PersonRepository.add, PersonRepository.find, PersonValidator.valid_id, hp]

lemma add_person_dup {repo : List Person} {p : Person} (hp : 0 < p.id)
    (q : Person) (hq : q ∈ repo) (hid : q.id = p.id) :
    PersonRepository.add repo (.person p) = (.error msgDuplicateId, repo) := by
  have h0 : 0 ≤ findIdxOr repo (.int p.id) :=
    findIdxOr_nonneg repo _ q hq (by simp [hid])
  have h1 : findIdxOr repo (.int p.id) ≠ -1 := by omega
  simp [PersonRepository.add, find_int_pos hp, h1]

lemma add_person_new {repo : List Person} {p : Person} (hp : 0 < p.id)
    (habs : ∀ q ∈ repo, q.id ≠ p.id) :
    PersonRepository.add repo (.person p) = (.ok (), sortById (repo ++ [p])) := by
  have h1 : findIdxOr repo (.int p.id) = -1 :=
    findIdxOr_eq_neg_one _ _ fun q hq => by simpa using habs q hq
  simp [PersonRepository.add, find_int_pos hp, h1]

lemma add_non_person {repo : List Person} {v : PyVal}
    (hv : ∀ p : Person, v ≠ .person p) :
    PersonRepository.add repo v = (.error msgInvalidPerson, repo) := by
  cases v with
  | person p => exact absurd rfl (hv p)
  | int n => rfl
  | str s => rfl
  | pynone => rfl

/-! Preservation of the invariant by each public operation. -/

lemma valid_nil : Valid [] := ⟨List.Pairwise.nil, by simp⟩

lemma valid_append_new {repo : List Person} {p : Person} (h : Valid repo)
    (hp : 0 < p.id) (habs : ∀ q ∈ repo, q.id ≠ p.id) :
    Valid (sortById (repo ++ [p])) := by
  apply valid_sortById
  · rw [List.map_append]
    refine List.Nodup.append (nodup_map_id h.1) (by simp) ?_
    intro a ha hb
    simp only [List.mem_map] at ha
    obtain ⟨q, hq, rfl⟩ := ha
    simp only [List.map_cons, List.map_nil, List.mem_singleton] at hb
    exact habs q hq hb
  · intro q hq
    rcases List.mem_append.mp hq with hq2 | hq2
    · exact h.2 q hq2
    · simp only [List.mem_singleton] at hq2
      subst hq2
      exact hp

lemma Valid.add_pres {repo : List Person} (h : Valid repo) (v : PyVal) :
    Valid (PersonRepository.add repo v).2 := by
  cases v with
  | person p =>
    by_cases hp : 0 < p.id
    · by_cases hdup : ∃ q ∈ repo, q.id = p.id
      · obtain ⟨q, hq, hid⟩ := hdup
        rw [add_person_dup hp q hq hid]
        exact h
      · push_neg at hdup
        rw [add_person_new hp hdup]
        exact valid_append_new h hp hdup
    · rw [add_person_invalid hp]
      exact h
  | int n => exact h
  | str s => exact h
  | pynone => exact h

lemma Valid.remove_pres {repo : List Person} (h : Valid repo) (v : PyVal) :
    Valid (PersonRepository.remove repo v).2 := by
  cases v with
  | int pos =>
    simp only [PersonRepository.remove]
    split_ifs with h1
    · exact h
    · cases hg : repo[pos.toNat]? with
      | none => exact h
      | some p =>
        refine ⟨?_, ?_⟩
        · exact List.Pairwise.sublist (repo.eraseIdx_sublist pos.toNat) h.1
        · intro q hq
          exact h.2 q (List.mem_of_mem_eraseIdx hq)
  | person p => exact h
  | str s => exact h
  | pynone => exact h

lemma Valid.remove_by_id_pres {repo : List Person} (h : Valid repo) (v : PyVal) :
    Valid (PersonRepository.remove_by_id repo v).2 := by
  simp only [PersonRepository.remove_by_id]
  split_ifs with h1
  · simp only [PersonRepository.find, h1, if_true]
    split_ifs with h2
    · exact h.remove_pres _
    · exact h
  · exact h

lemma step_valid {a b : List Person} (h : Valid a) (hs : Step a b) : Valid b := by
  cases hs with
  | add v => exact h.add_pres v
  | remove v => exact h.remove_pres v
  | remove_by_id v => exact h.remove_by_id_pres v
  | len_or_iter => rw [h.sortById_eq]; exact h

lemma reachable_valid {repo : List Person} (h : Reachable repo) : Valid repo := by
  induction h with
  | refl => exact valid_nil
  | tail hab hbc ih => exact step_valid ih hbc

/-! The filter loop of `find_by_name` / `find_by_address` / `find_by_phone`. -/

lemma filterAdd_ok (pred : Person → Bool) :
    ∀ (l acc : List Person),
      acc.Pairwise (fun a b => a.id < b.id) →
      (∀ p ∈ acc, 0 < p.id) →
      l.Pairwise (fun a b => a.id < b.id) →
      (∀ p ∈ l, 0 < p.id) →
      (∀ a ∈ acc, ∀ b ∈ l, a.id < b.id) →
      filterAdd pred acc l = .ok (acc ++ l.filter pred) := by
  intro l
  induction l with
  | nil => intro acc _ _ _ _ _; simp [filterAdd]
  | cons p rest ih =>
    intro acc hasort hapos hlsort hlpos hcross
    have hp : 0 < p.id := hlpos p (List.mem_cons_self p rest)
    have hrest_sort : rest.Pairwise (fun a b => a.id < b.id) :=
      List.Pairwise.of_cons hlsort
    have hrest_pos : ∀ q ∈ rest, 0 < q.id :=
      fun q hq => hlpos q (List.mem_cons_of_mem _ hq)
    have hp_lt_rest : ∀ b ∈ rest, p.id < b.id :=
      fun b hb => List.rel_of_pairwise_cons hlsort hb
    by_cases hpred : pred p
    · have habs : ∀ q ∈ acc, q.id ≠ p.id :=
        fun q hq => ne_of_lt (hcross q hq p (List.mem_cons_self p rest))
      have hadd : PersonRepository.add acc (.person p)
          = (.ok (), sortById (acc ++ [p])) := add_person_new hp habs
      have happ_sorted : (acc ++ [p]).Pairwise (fun a b => a.id < b.id) := by
        rw [List.pairwise_append]
        refine ⟨hasort, by simp, ?_⟩
        intro a ha b hb
        simp only [List.mem_singleton] at hb
        rw [hb]
        exact hcross a ha p (List.mem_cons_self p rest)
      have hsort_eq : sortById (acc ++ [p]) = acc ++ [p] :=
        sortById_eq_of_sorted (happ_sorted.imp fun hab => le_of_lt hab)
      have hstep : filterAdd pred acc (p :: rest)
          = filterAdd pred (acc ++ [p]) rest := by
        simp [filterAdd, hpred, hadd, hsort_eq]
      rw [hstep,
        ih (acc ++ [p]) happ_sorted
          (fun q hq => by
            rcases List.mem_append.mp hq with h2 | h2
            · exact hapos q h2
            · simp only [List.mem_singleton] at h2; subst h2; exact hp)
          hrest_sort hrest_pos
          (fun a ha b hb => by
            rcases List.mem_append.mp ha with h2 | h2
            · exact hcross a h2 b (List.mem_cons_of_mem _ hb)
            · simp only [List.mem_singleton] at h2; subst h2
              exact hp_lt_rest b hb)]
      simp [List.filter_cons, hpred]
    · have hstep : filterAdd pred acc (p :: rest) = filterAdd pred acc rest := by
        simp [filterAdd, hpred]
      rw [hstep,
        ih acc hasort hapos hrest_sort hrest_pos
          (fun a ha b hb => hcross a ha b (List.mem_cons_of_mem _ hb))]
      simp [List.filter_cons, hpred]

lemma filterAdd_filter {repo : List Person} (h : Valid repo)
    (pred : Person → Bool) :
    filterAdd pred [] repo = .ok (repo.filter pred) := by
  have := filterAdd_ok pred repo [] List.Pairwise.nil (by simp) h.1 h.2
    (by simp)
  simpa using this

/-! `find_by_id` returns the stored record with the requested id. -/

lemma find_by_id_mem {repo : List Person} {p : Person} (hp : 0 < p.id)
    (hmem : p ∈ repo) (huniq : ∀ q ∈ repo, q.id = p.id → q = p) :
    PersonRepository.find_by_id repo (.int p.id) = .ok p := by
  have hvalid : PersonValidator.valid_id (.int p.id) = true := by
    simp [PersonValidator.valid_id, hp]
  have h0 : 0 ≤ findIdxOr repo (.int p.id) :=
    findIdxOr_nonneg repo _ p hmem rfl
  obtain ⟨q, hq1, hq2⟩ := findIdxOr_getElem repo (.int p.id) h0
  have hqid : q.id = p.id := by simpa using hq2
  have hqmem : q ∈ repo := by
    have := List.getElem?_eq_some_iff.mp hq1
    obtain ⟨hlt, hget⟩ := this
    exact hget ▸ List.getElem_mem hlt
  have hqp : q = p := huniq q hqmem hqid
  subst hqp
  have hne : findIdxOr repo (.int q.id) ≠ -1 := by omega
  simp [PersonRepository.find_by_id, hvalid, find_int_pos hp, hne, hq1]

/-! Concrete reachability of the test fixture. -/

lemma step_add_eq {a b : List Person} (v : PyVal)
    (h : (PersonRepository.add a v).2 = b) : Step a b :=
  h ▸ Step.add a v

lemma reachable_repo4 : Reachable repo4 := by
  have s1 : Step [] [pJohn] := step_add_eq (.person pJohn) (by decide)
  have s2 : Step [pJohn] [pJohn, pMary] := step_add_eq (.person pMary) (by decide)
  have s3 : Step [pJohn, pMary] [pJohn, pMary, pMike5] :=
    step_add_eq (.person pMike5) (by decide)
  have s4 : Step [pJohn, pMary, pMike5] repo4 :=
    step_add_eq (.person pMike7) (by decide)
  exact Relation.ReflTransGen.tail
    (Relation.ReflTransGen.tail
      (Relation.ReflTransGen.tail (Relation.ReflTransGen.single s1) s2) s3) s4

lemma valid_repo4 : Valid repo4 := by
  constructor <;> decide

/-- Claim C1: for every sequence of public `add`/`remove`/`remove_by_id`
operations starting from the empty repository, `all()` and `iterate()` yield
the contained records in strictly ascending order of id after every operation
returns. -/
theorem repo_ordering_invariant (repo : List Person) (h : Reachable repo) :
    (PersonRepository.all repo).Pairwise (fun a b => a.id < b.id) ∧
    PersonRepository.iterate repo = PersonRepository.all repo := by
  have hv := reachable_valid h
  exact ⟨hv.1, hv.sortById_eq⟩

/-- Witness for C1 at the four-person test repository. -/
theorem repo_ordering_invariant_witness :
    (PersonRepository.all repo4).Pairwise (fun a b => a.id < b.id) ∧
    PersonRepository.iterate repo4 = PersonRepository.all repo4 :=
  repo_ordering_invariant repo4 reachable_repo4

/-- Claim C2: for every id k and every sequence of public operations starting
from the empty repository, at most one contained record has id k after each
operation returns. -/
theorem repo_id_uniqueness (repo : List Person) (h : Reachable repo) (k : Int) :
    repo.countP (fun p => p.id == k) ≤ 1 := by
  have hv := reachable_valid h
  have hnd : (repo.map Person.id).Nodup := nodup_map_id hv.1
  have hc : (repo.map Person.id).countP (fun n => n == k) ≤ 1 :=
    List.nodup_iff_count_le_one.mp hnd k
  rw [List.countP_map] at hc
  exact hc

/-- Witness for C2 at the four-person test repository and id 2. -/
theorem repo_id_uniqueness_witness :
    repo4.countP (fun p => p.id == 2) ≤ 1 :=
  repo_id_uniqueness repo4 reachable_repo4 2

/-- Claim C3: adding a Person whose id equals the id of a contained record
fails with the duplicate-id error and returns the repository unchanged (no
partial insert). -/
theorem add_duplicate_rejected (repo : List Person) (h : Valid repo)
    (p q : Person) (hq : q ∈ repo) (hid : q.id = p.id) :
    PersonRepository.add repo (.person p) = (.error msgDuplicateId, repo) := by
  have hp : 0 < p.id := hid ▸ h.2 q hq
  exact add_person_dup hp q hq hid

/-- Witness for C3: re-adding a person with id 1 to the test repository. -/
theorem add_duplicate_rejected_witness :
    PersonRepository.add repo4 (.person ⟨1, "Mary", "1", "B"⟩)
      = (.error msgDuplicateId, repo4) :=
  add_duplicate_rejected repo4 valid_repo4 ⟨1, "Mary", "1", "B"⟩ pJohn
    (by decide) (by decide)

/-- Claim C4: for a valid repository and a Person `p` with a positive id not
already present, a successful `add p` followed immediately by
`find_by_id p.id` returns a record structurally equal to `p`. -/
theorem add_find_by_id_roundtrip (repo : List Person)
    (p : Person) (hp : 0 < p.id) (habs : ∀ q ∈ repo, q.id ≠ p.id) :
    ∃ repo2, PersonRepository.add repo (.person p) = (.ok (), repo2) ∧
      PersonRepository.find_by_id repo2 (.int p.id) = .ok p := by
  refine ⟨sortById (repo ++ [p]), add_person_new hp habs, ?_⟩
  apply find_by_id_mem hp
  · exact (sortById_perm _).mem_iff.mpr (by simp)
  · intro q hq hqid
    have hq2 : q ∈ repo ++ [p] := (sortById_perm _).mem_iff.mp hq
    rcases List.mem_append.mp hq2 with h2 | h2
    · exact absurd hqid (habs q h2)
    · simpa using h2

/-- Witness for C4: adding a person with fresh id 3 to the test repository. -/
theorem add_find_by_id_roundtrip_witness :
    ∃ repo2,
      PersonRepository.add repo4 (.person ⟨3, "Anna", "7", "D"⟩)
        = (.ok (), repo2) ∧
      PersonRepository.find_by_id repo2 (.int 3) = .ok ⟨3, "Anna", "7", "D"⟩ :=
  add_find_by_id_roundtrip repo4 ⟨3, "Anna", "7", "D"⟩
    (by decide) (by decide)

/-- Claim C7: for a positive id k with no matching record, `find` returns the
sentinel -1 without error while `find_by_id` and `remove_by_id` fail with the
not-found error; that error is distinct from the invalid-id error raised for a
non-positive or non-integer id. -/
theorem notfound_two_layer (repo : List Person) (k : Int) (hk : 0 < k)
    (habs : ∀ q ∈ repo, q.id ≠ k) :
    PersonRepository.find repo (.int k) = .ok (-1) ∧
    PersonRepository.find_by_id repo (.int k) = .error msgNotFound ∧
    PersonRepository.remove_by_id repo (.int k) = (.error msgNotFound, repo) ∧
    msgNotFound ≠ msgInvalidId ∧
    ∀ v : PyVal, PersonValidator.valid_id v = false →
      PersonRepository.find repo v = .error msgInvalidId ∧
      PersonRepository.find_by_id repo v = .error msgInvalidId ∧
      PersonRepository.remove_by_id repo v = (.error msgInvalidId, repo) := by
  have hidx : findIdxOr repo (.int k) = -1 :=
    findIdxOr_eq_neg_one _ _ fun q hq => by simpa using habs q hq
  have hvalid : PersonValidator.valid_id (.int k) = true := by
    simp [PersonValidator.valid_id, hk]
  refine ⟨?_, ?_, ?_, by decide, ?_⟩
  · rw [find_int_pos hk, hidx]
  · simp [PersonRepository.find_by_id, hvalid, find_int_pos hk, hidx]
  · simp [PersonRepository.remove_by_id, hvalid, find_int_pos hk, hidx]
  · intro v hv
    refine ⟨find_invalid hv, ?_, ?_⟩
    · simp [PersonRepository.find_by_id, hv]
    · simp [PersonRepository.remove_by_id, hv]

/-- Witness for C7 at the test repository and the absent id 3. -/
theorem notfound_two_layer_witness :
    PersonRepository.find repo4 (.int 3) = .ok (-1) ∧
    PersonRepository.find_by_id repo4 (.int 3) = .error msgNotFound ∧
    PersonRepository.remove_by_id repo4 (.int 3) = (.error msgNotFound, repo4) ∧
    msgNotFound ≠ msgInvalidId ∧
    ∀ v : PyVal, PersonValidator.valid_id v = false →
      PersonRepository.find repo4 v = .error msgInvalidId ∧
      PersonRepository.find_by_id repo4 v = .error msgInvalidId ∧
      PersonRepository.remove_by_id repo4 v = (.error msgInvalidId, repo4) :=
  notfound_two_layer repo4 3 (by decide) (by decide)

/-- Claim C9: adding a Person whose id is not a positive integer fails through
the id validation inside the membership scan and leaves the repository
unchanged; consequently every record contained in a repository built by
public operations has a positive id. -/
theorem add_invalid_id_rejected (repo : List Person) (p : Person)
    (hp : ¬ 0 < p.id) :
    PersonRepository.add repo (.person p) = (.error msgInvalidId, repo) ∧
    ∀ r, Reachable r → ∀ q ∈ r, 0 < q.id :=
  ⟨add_person_invalid hp, fun _ hr => (reachable_valid hr).2⟩

/-- Witness for C9: adding a person with id 0 to the test repository. -/
theorem add_invalid_id_rejected_witness :
    PersonRepository.add repo4 (.person ⟨0, "Zed", "0", "Z"⟩)
      = (.error msgInvalidId, repo4) ∧
    ∀ r, Reachable r → ∀ q ∈ r, 0 < q.id :=
  add_invalid_id_rejected repo4 ⟨0, "Zed", "0", "Z"⟩ (by decide)

/-- Claim C5: each substring filter returns a new repository containing exactly
the records whose searched field contains the given case-sensitive substring
(the empty substring matches every record), and fails with the invalid-argument
error for a non-string argument. -/
theorem find_by_substring_correct (repo : List Person) (h : Valid repo) :
    (∀ s : String,
      PersonRepository.find_by_name repo (.str s)
        = .ok (repo.filter fun p => strContains p.name s) ∧
      PersonRepository.find_by_address repo (.str s)
        = .ok (repo.filter fun p => strContains p.address s) ∧
      PersonRepository.find_by_phone repo (.str s)
        = .ok (repo.filter fun p => strContains p.phone s)) ∧
    (∀ v : PyVal, (∀ s : String, v ≠ .str s) →
      PersonRepository.find_by_name repo v = .error msgInvalidName ∧
      PersonRepository.find_by_address repo v = .error msgInvalidAddress ∧
      PersonRepository.find_by_phone repo v = .error msgInvalidPhone) ∧
    (∀ hay : String, strContains hay "" = true) := by
  refine ⟨?_, ?_, ?_⟩
  · intro s
    exact ⟨filterAdd_filter h _, filterAdd_filter h _, filterAdd_filter h _⟩
  · intro v hv
    cases v with
    | str s => exact absurd rfl (hv s)
    | int n => exact ⟨rfl, rfl, rfl⟩
    | person p => exact ⟨rfl, rfl, rfl⟩
    | pynone => exact ⟨rfl, rfl, rfl⟩
  · intro hay
    apply List.any_eq_true.mpr
    refine ⟨0, by simp, ?_⟩
    simp

/-- Witness for C5 at the test repository: searching names for "Mike", a
non-string argument, and the empty substring. -/
theorem find_by_substring_correct_witness :
    PersonRepository.find_by_name repo4 (.str "Mike") = .ok [pMike5, pMike7] ∧
    PersonRepository.find_by_name repo4 (.int 3) = .error msgInvalidName ∧
    strContains "John" "" = true := by
  obtain ⟨h1, h2, h3⟩ := find_by_substring_correct repo4 valid_repo4
  refine ⟨?_, ?_, h3 "John"⟩
  · rw [(h1 "Mike").1]
    decide
  · exact (h2 (.int 3) fun s hs => PyVal.noConfusion hs).1

/-- Claim C6: on a valid (ascending-by-id) repository, `remove` at an in-range
integer position returns the record at that position and shifts later records
down by one; a non-integer or out-of-range position fails with the
invalid-position error and leaves the repository unchanged; in particular on
the repository holding ids 1, 2, 5, 7, `remove(2)` returns the person with id
5, leaves size 3, and a subsequent `find(5)` returns -1. -/
theorem remove_positional_correct (repo : List Person) (h : Valid repo) :
    repo.Pairwise (fun a b => a.id < b.id) ∧
    (∀ pos : Int, 0 ≤ pos → pos < (repo.length : Int) →
      ∃ p, repo[pos.toNat]? = some p ∧
        PersonRepository.remove repo (.int pos)
          = (.ok p, repo.take pos.toNat ++ repo.drop (pos.toNat + 1))) ∧
    (∀ pos : Int, pos < 0 ∨ (repo.length : Int) ≤ pos →
      PersonRepository.remove repo (.int pos) = (.error msgInvalidPos, repo)) ∧
    (∀ v : PyVal, (∀ n : Int, v ≠ .int n) →
      PersonRepository.remove repo v = (.error msgInvalidPos, repo)) ∧
    (repo = repo4 →
      PersonRepository.remove repo (.int 2) = (.ok pMike5, [pJohn, pMary, pMike7]) ∧
      (PersonRepository.remove repo (.int 2)).2.length = 3 ∧
      PersonRepository.find (PersonRepository.remove repo (.int 2)).2 (.int 5)
        = .ok (-1)) := by
  refine ⟨h.1, ?_, ?_, ?_, ?_⟩
  · intro pos h0 hlen
    have hlt : pos.toNat < repo.length := by omega
    have hsome : repo[pos.toNat]? = some (repo[pos.toNat]) :=
      List.getElem?_eq_getElem hlt
    refine ⟨repo[pos.toNat], hsome, ?_⟩
    have hcond : ¬ (pos < 0 ∨ (repo.length : Int) ≤ pos) := by
      push_neg
      exact ⟨h0, hlen⟩
    simp only [PersonRepository.remove, if_neg hcond, hsome,
      List.eraseIdx_eq_take_drop_succ]
  · intro pos hcond
    simp only [PersonRepository.remove, if_pos hcond]
  · intro v hv
    cases v with
    | int n => exact absurd rfl (hv n)
    | str s => rfl
    | person p => rfl
    | pynone => rfl
  · intro hrepo
    subst hrepo
    exact ⟨by decide, by decide, by decide⟩

/-- Witness for C6 at the test repository: in-range removal at position 2,
out-of-range position 4, and a non-integer position. -/
theorem remove_positional_correct_witness :
    PersonRepository.remove repo4 (.int 2) = (.ok pMike5, [pJohn, pMary, pMike7]) ∧
    PersonRepository.remove repo4 (.int 4) = (.error msgInvalidPos, repo4) ∧
    PersonRepository.remove repo4 (.str "x") = (.error msgInvalidPos, repo4) := by
  obtain ⟨-, -, hout, hnon, hconc⟩ := remove_positional_correct repo4 valid_repo4
  refine ⟨(hconc rfl).1, ?_, ?_⟩
  · exact hout 4 (by decide)
  · exact hnon (.str "x") fun n hn => PyVal.noConfusion hn

/-! String rendering support. -/

lemma strConcat_length : ∀ (l : List String) (acc : String),
    (l.foldl (fun a b => a ++ b) acc).length
      = acc.length + (l.map String.length).sum := by
  intro l
  induction l with
  | nil => intro acc; simp
  | cons s rest ih =>
    intro acc
    rw [List.foldl_cons, ih (acc ++ s)]
    simp [String.length_append]
    omega

lemma personStr_length_pos (p : Person) : 0 < (personStr p).length := by
  simp [personStr, String.length_append]
  exact Or.inr (by decide)

/-- Claim C10: the textual rendering of a valid repository is the concatenation
of the string forms of its records in ascending id order when non-empty, and is
exactly the sentinel string when the repository is empty. -/
theorem str_rendering (repo : List Person) (h : Valid repo) :
    (repo = [] → PersonRepository.toStr repo = "None\n") ∧
    (repo ≠ [] →
      PersonRepository.toStr repo
        = (repo.map personStr).foldl (fun a b => a ++ b) "" ∧
      repo.Pairwise (fun a b => a.id < b.id)) := by
  constructor
  · intro hrepo
    subst hrepo
    rfl
  · intro hne
    have heq : repo.foldl (fun acc p => acc ++ personStr p) ""
        = (repo.map personStr).foldl (fun a b => a ++ b) "" := by
      rw [List.foldl_map]
    refine ⟨?_, h.1⟩
    have hne2 : repo.foldl (fun acc p => acc ++ personStr p) "" ≠ "" := by
      intro hcontra
      have h0 := congrArg String.length hcontra
      rw [heq, strConcat_length] at h0
      cases repo with
      | nil => exact hne rfl
      | cons p rest =>
        simp only [List.map_cons, List.sum_cons, String.length] at h0
        have hp := personStr_length_pos p
        simp only [String.length] at hp
        omega
    simp only [PersonRepository.toStr, if_pos hne2]
    exact heq

/-- Witness for C10 at the non-empty test repository. -/
theorem str_rendering_witness :
    PersonRepository.toStr repo4
      = (repo4.map personStr).foldl (fun a b => a ++ b) "" ∧
    repo4.Pairwise (fun a b => a.id < b.id) :=
  (str_rendering repo4 valid_repo4).2 (by decide)

/-! A store model for claim C8.  The value-level model above cannot speak about
Python object identity, so the heap of repository objects is modelled
explicitly: each `PersonRepository` instance is one entry of the store,
addressed by its index (its handle).  Each Python method writes only
`self.__list`, i.e. only its own store entry. -/

/-- The heap of repository objects. -/
abbrev Store := List (List Person)

/-- The internal list of the repository object at handle h. -/
def storeGet (st : Store) (h : Nat) : List Person :=
  List.getD st h []

/-- Number of allocated repository objects. -/
def storeSize (st : Store) : Nat := List.length st

/-- `add` invoked on the repository object at handle h: it writes only that
object's `self.__list`. -/
def storeAdd (st : Store) (h : Nat) (v : PyVal) : Except String Unit × Store :=
  let r := PersonRepository.add (storeGet st h) v
  (r.1, List.set st h r.2)

/-- `remove` invoked on the repository object at handle h. -/
def storeRemove (st : Store) (h : Nat) (v : PyVal) :
    Except String Person × Store :=
  let r := PersonRepository.remove (storeGet st h) v
  (r.1, List.set st h r.2)

/-- `remove_by_id` invoked on the repository object at handle h. -/
def storeRemoveById (st : Store) (h : Nat) (v : PyVal) :
    Except String Person × Store :=
  let r := PersonRepository.remove_by_id (storeGet st h) v
  (r.1, List.set st h r.2)

/-- `find_by_name` invoked on the repository object at handle h: on success the
new `PersonRepository()` it built is allocated as a fresh object whose handle
is returned; the source object is not written (the loop reads `self.__list`
and writes only `foundPeople`). -/
def storeFindByName (st : Store) (h : Nat) (v : PyVal) :
    Except String Nat × Store :=
  match PersonRepository.find_by_name (storeGet st h) v with
  | .ok l => (.ok (storeSize st), st ++ [l])
  | .error e => (.error e, st)

/-- `find_by_address` invoked on the repository object at handle h. -/
def storeFindByAddress (st : Store) (h : Nat) (v : PyVal) :
    Except String Nat × Store :=
  match PersonRepository.find_by_address (storeGet st h) v with
  | .ok l => (.ok (storeSize st), st ++ [l])
  | .error e => (.error e, st)

/-- `find_by_phone` invoked on the repository object at handle h. -/
def storeFindByPhone (st : Store) (h : Nat) (v : PyVal) :
    Except String Nat × Store :=
  match PersonRepository.find_by_phone (storeGet st h) v with
  | .ok l => (.ok (storeSize st), st ++ [l])
  | .error e => (.error e, st)

/-- One public mutating call on the repository object at handle h. -/
inductive StoreStep (h : Nat) : Store → Store → Prop where
  | add (st : Store) (v : PyVal) : StoreStep h st (storeAdd st h v).2
  | remove (st : Store) (v : PyVal) : StoreStep h st (storeRemove st h v).2
  | remove_by_id (st : Store) (v : PyVal) :
      StoreStep h st (storeRemoveById st h v).2

lemma storeGet_set_ne (st : Store) (h h2 : Nat) (l : List Person)
    (hne : h ≠ h2) : storeGet (List.set st h l) h2 = storeGet st h2 := by
  simp only [storeGet, List.getD, List.get?_eq_getElem?]
  rw [List.getElem?_set_ne hne]

lemma storeStep_frame {h h2 : Nat} (hne : h ≠ h2) {st st2 : Store}
    (hs : StoreStep h st st2) : storeGet st2 h2 = storeGet st h2 := by
  cases hs with
  | add v => exact storeGet_set_ne _ _ _ _ hne
  | remove v => exact storeGet_set_ne _ _ _ _ hne
  | remove_by_id v => exact storeGet_set_ne _ _ _ _ hne

lemma storeSteps_frame {h h2 : Nat} (hne : h ≠ h2) {st st2 : Store}
    (hs : Relation.ReflTransGen (StoreStep h) st st2) :
    storeGet st2 h2 = storeGet st h2 := by
  induction hs with
  | refl => rfl
  | tail hab hbc ih => rw [storeStep_frame hne hbc, ih]

lemma storeGet_append_lt (st : Store) (l : List Person) (h : Nat)
    (hlt : h < storeSize st) : storeGet (st ++ [l]) h = storeGet st h := by
  simp only [storeGet, List.getD, List.get?_eq_getElem?]
  rw [List.getElem?_append_left hlt]

lemma storeGet_append_self (st : Store) (l : List Person) :
    storeGet (st ++ [l]) (storeSize st) = l := by
  simp [storeGet, List.getD, storeSize]

/-- The snapshot `flt`, freshly allocated at handle `storeSize st`, is
independent of the source repository object at handle `hsrc`: allocating it
does not change the source, no sequence of mutations of the source changes the
snapshot's contents, and no sequence of mutations of the snapshot changes the
source's contents. -/
def SnapshotIndependent (st : Store) (hsrc : Nat) (flt : List Person) : Prop :=
  storeGet (st ++ [flt]) hsrc = storeGet st hsrc ∧
  storeGet (st ++ [flt]) (storeSize st) = flt ∧
  (∀ st2, Relation.ReflTransGen (StoreStep hsrc) (st ++ [flt]) st2 →
    storeGet st2 (storeSize st) = flt) ∧
  (∀ st2, Relation.ReflTransGen (StoreStep (storeSize st)) (st ++ [flt]) st2 →
    storeGet st2 hsrc = storeGet st hsrc)

lemma snapshotIndependent_of_lt {st : Store} {hsrc : Nat}
    (hlt : hsrc < storeSize st) (flt : List Person) :
    SnapshotIndependent st hsrc flt := by
  have hne : hsrc ≠ storeSize st := Nat.ne_of_lt hlt
  have h1 : storeGet (st ++ [flt]) hsrc = storeGet st hsrc :=
    storeGet_append_lt st flt hsrc hlt
  have h2 : storeGet (st ++ [flt]) (storeSize st) = flt :=
    storeGet_append_self st flt
  refine ⟨h1, h2, ?_, ?_⟩
  · intro st2 hs
    rw [storeSteps_frame hne hs, h2]
  · intro st2 hs
    rw [storeSteps_frame (Ne.symm hne) hs, h1]

/-- Claim C8: on a valid source repository object, each substring filter
returns a new, independent repository object holding exactly the matching
records and leaves the source's contents unchanged; afterwards, mutating the
source (by any sequence of add/remove/remove_by_id calls) does not change the
snapshot's contents, and mutating the snapshot does not change the source's. -/
theorem snapshot_independence (st : Store) (hsrc : Nat) (s : String)
    (hlt : hsrc < storeSize st) (hv : Valid (storeGet st hsrc)) :
    (storeFindByName st hsrc (.str s)
        = (.ok (storeSize st),
          st ++ [(storeGet st hsrc).filter fun p => strContains p.name s]) ∧
      SnapshotIndependent st hsrc
        ((storeGet st hsrc).filter fun p => strContains p.name s)) ∧
    (storeFindByAddress st hsrc (.str s)
        = (.ok (storeSize st),
          st ++ [(storeGet st hsrc).filter fun p => strContains p.address s]) ∧
      SnapshotIndependent st hsrc
        ((storeGet st hsrc).filter fun p => strContains p.address s)) ∧
    (storeFindByPhone st hsrc (.str s)
        = (.ok (storeSize st),
          st ++ [(storeGet st hsrc).filter fun p => strContains p.phone s]) ∧
      SnapshotIndependent st hsrc
        ((storeGet st hsrc).filter fun p => strContains p.phone s)) := by
  have hname : PersonRepository.find_by_name (storeGet st hsrc) (.str s)
      = .ok ((storeGet st hsrc).filter fun p => strContains p.name s) :=
    filterAdd_filter hv _
  have haddr : PersonRepository.find_by_address (storeGet st hsrc) (.str s)
      = .ok ((storeGet st hsrc).filter fun p => strContains p.address s) :=
    filterAdd_filter hv _
  have hphone : PersonRepository.find_by_phone (storeGet st hsrc) (.str s)
      = .ok ((storeGet st hsrc).filter fun p => strContains p.phone s) :=
    filterAdd_filter hv _
  refine ⟨⟨?_, snapshotIndependent_of_lt hlt _⟩,
    ⟨?_, snapshotIndependent_of_lt hlt _⟩,
    ⟨?_, snapshotIndependent_of_lt hlt _⟩⟩
  · simp only [storeFindByName, hname]
  · simp only [storeFindByAddress, haddr]
  · simp only [storeFindByPhone, hphone]

/-- Witness for C8: a store holding just the four-person test repository,
filtering names by "Mike". -/
theorem snapshot_independence_witness :
    (storeFindByName [repo4] 0 (.str "Mike")
        = (.ok (storeSize [repo4]),
          [repo4] ++ [(storeGet [repo4] 0).filter fun p => strContains p.name "Mike"]) ∧
      SnapshotIndependent [repo4] 0
        ((storeGet [repo4] 0).filter fun p => strContains p.name "Mike")) ∧
    (storeFindByAddress [repo4] 0 (.str "Mike")
        = (.ok (storeSize [repo4]),
          [repo4] ++ [(storeGet [repo4] 0).filter fun p => strContains p.address "Mike"]) ∧
      SnapshotIndependent [repo4] 0
        ((storeGet [repo4] 0).filter fun p => strContains p.address "Mike")) ∧
    (storeFindByPhone [repo4] 0 (.str "Mike")
        = (.ok (storeSize [repo4]),
          [repo4] ++ [(storeGet [repo4] 0).filter fun p => strContains p.phone "Mike"]) ∧
      SnapshotIndependent [repo4] 0
        ((storeGet [repo4] 0).filter fun p => strContains p.phone "Mike")) :=
  snapshot_independence [repo4] 0 "Mike" (by decide) valid_repo4
